import Mathlib

/-!
Shallow embedding of the Rosetta Code lexical analyzer (lex.cpp).

The C++ scanner walks a null-terminated character buffer with a raw pointer
`pos`.  We model the buffer from the current pointer onward as a list of
characters `rest`; the terminating null that C++ string data carries is an
explicit final element of that list.  Advancing the pointer drops the head of
`rest`.  Reading memory past the terminator (pointer beyond `data() + size()`)
has no defined value in C++, so every operation that would perform such a read
returns `none`; `none` therefore marks an out-of-bounds access (or, in
`Lexer.error`, the unsigned-underflow excerpt length), never a normal result.
All other results are `some`.

The while loops of the source (whitespace skipping, comment scanning, string
and identifier accumulation) are embedded as functions that recurse
structurally on the buffer list, threading the line and column counters; the
self-recursion of `divide_or_comment` into `next_token` carries a fuel bound
(`rest length + 1` suffices, since every skipped comment consumes at least
four characters).  All definitions compute by kernel reduction.

Machine integers: the token value is a C++ `int` (32 bits on the reference
platform); `stol` parses a 64-bit `long`.  We model both with `Int` and make
the narrowing conversion explicit (`toInt32`).
-/

namespace RosettaLex

/-- C locale `isspace` on a byte (lex.cpp line 272 uses
`isspace(static_cast<unsigned char>(c))`): space, tab, newline, vertical tab,
form feed, carriage return. -/
def c_isspace (c : Char) : Bool :=
  c = ' ' || c = '\t' || c = '\n' || c.toNat = 11 || c.toNat = 12 || c.toNat = 13

/-- C locale `isdigit`. -/
def c_isdigit (c : Char) : Bool :=
  '0' ≤ c && c ≤ '9'

/-- C locale `isalpha` (default locale: ASCII letters only). -/
def c_isalpha (c : Char) : Bool :=
  ('a' ≤ c && c ≤ 'z') || ('A' ≤ c && c ≤ 'Z')

/-- C locale `isalnum`. -/
def c_isalnum (c : Char) : Bool :=
  c_isalpha c || c_isdigit c

/-- The null character used as the end-of-input sentinel. -/
def sentinel : Char := '\x00'

/-- The character-to-`int` conversion performed by `int n = s.next()`
(lex.cpp line 324): plain `char` is signed on the reference platform, so
bytes at or above 128 convert to negative values. -/
def charToInt (c : Char) : Int :=
  if c.toNat < 128 then (c.toNat : Int) else (c.toNat : Int) - 256

/-- Implementation-defined narrowing of a `long` value into a 32-bit `int`
(`n = stol(text)` at lex.cpp line 399): two-complement wraparound, as gcc
defines it. -/
def toInt32 (v : Int) : Int :=
  (v + 2147483648) % 4294967296 - 2147483648

/-- Decimal digits of a natural number, most significant first. -/
def natToChars (n : Nat) : List Char := Nat.toDigits 10 n

/-- Rendering of a C++ `int` by `std::to_string` (lex.cpp line 158). -/
def intToChars (n : Int) : List Char :=
  if n < 0 then '-' :: natToChars n.natAbs else natToChars n.toNat

/-- Value of a nonempty string of decimal digits, as `stol` computes it
(lex.cpp line 399; the scanned text is all digits, so no sign or base
handling is involved). -/
def digitsToNat (l : List Char) : Nat :=
  l.foldl (fun a c => a * 10 + (c.toNat - 48)) 0

-- ---------------------------------------------------------------------------
-- Scanner (lex.cpp lines 86-114)
-- ---------------------------------------------------------------------------

/-- The C++ `Scanner`: a pointer into the null-terminated source buffer plus
1-based line and column counters.  `rest` is the buffer content from the
pointer onward, including the terminating null as its final element. -/
structure Scanner where
  rest : List Char
  line : Nat
  col  : Nat
deriving Repr, DecidableEq

/-- The line counter after consuming `c` (lex.cpp lines 109-110). -/
def stepLine (line : Nat) (c : Char) : Nat :=
  if c = '\n' then line + 1 else line

/-- The column counter after consuming `c` (lex.cpp lines 109-110). -/
def stepCol (col : Nat) (c : Char) : Nat :=
  if c = '\n' then 1 else col + 1

/-- The scanner state reached by consuming `c` when the buffer after `c` is
`rest`: one step of the advance of lex.cpp lines 107-113. -/
def stepTo (rest : List Char) (line col : Nat) (c : Char) : Scanner :=
  ⟨rest, stepLine line c, stepCol col c⟩

/-- Scanner peek (lex.cpp line 97): read the character under the pointer.
`none` models a read past the null terminator (out of bounds in C++). -/
def Scanner.peek (s : Scanner) : Option Char :=
  s.rest.head?

/-- Scanner advance (lex.cpp lines 107-113): reads the character under the
pointer to update line/column, then increments the pointer.  `none` models
the out-of-bounds read when the pointer is already past the terminator. -/
def Scanner.advance (s : Scanner) : Option Scanner :=
  match s.rest with
  | [] => none
  | c :: r => some (stepTo r s.line s.col c)

/-- Scanner next (lex.cpp lines 100-104): advance, then peek. -/
def Scanner.next (s : Scanner) : Option (Char × Scanner) :=
  match s.advance with
  | none => none
  | some s1 =>
    match s1.peek with
    | none => none
    | some c => some (c, s1)

-- ---------------------------------------------------------------------------
-- Tokens (lex.cpp lines 120-188)
-- ---------------------------------------------------------------------------

/-- The token kinds (lex.cpp lines 120-129). -/
inductive TokenName where
  | OP_MULTIPLY | OP_DIVIDE | OP_MOD | OP_ADD | OP_SUBTRACT | OP_NEGATE
  | OP_LESS | OP_LESSEQUAL | OP_GREATER | OP_GREATEREQUAL | OP_EQUAL | OP_NOTEQUAL
  | OP_NOT | OP_ASSIGN | OP_AND | OP_OR
  | LEFTPAREN | RIGHTPAREN | LEFTBRACE | RIGHTBRACE | SEMICOLON | COMMA
  | KEYWORD_IF | KEYWORD_ELSE | KEYWORD_WHILE | KEYWORD_PRINT | KEYWORD_PUTC
  | IDENTIFIER | INTEGER | STRING
  | END_OF_INPUT | ERROR
deriving Repr, DecidableEq

/-- The token value `variant<int, string>` (lex.cpp line 131). -/
inductive TokenVal where
  | vint (n : Int)
  | vstr (s : List Char)
deriving Repr, DecidableEq

/-- A token (lex.cpp lines 133-139). -/
structure Token where
  name   : TokenName
  value  : TokenVal
  line   : Nat
  column : Nat
deriving Repr, DecidableEq

/-- Token-name labels (lex.cpp lines 142-154).  The C++ table has exactly 27
entries; indexing it with any later enumerator reads past the array, but
the token renderer only reaches this function for the first 27 kinds, so
that case is unreachable from the rendering path and is mapped to `[]`. -/
def to_cstring : TokenName → List Char
  | .OP_MULTIPLY    => "Op_multiply".toList
  | .OP_DIVIDE      => "Op_divide".toList
  | .OP_MOD         => "Op_mod".toList
  | .OP_ADD         => "Op_add".toList
  | .OP_SUBTRACT    => "Op_subtract".toList
  | .OP_NEGATE      => "Op_negate".toList
  | .OP_LESS        => "Op_less".toList
  | .OP_LESSEQUAL   => "Op_lessequal".toList
  | .OP_GREATER     => "Op_greater".toList
  | .OP_GREATEREQUAL => "Op_greaterequal".toList
  | .OP_EQUAL       => "Op_equal".toList
  | .OP_NOTEQUAL    => "Op_notequal".toList
  | .OP_NOT         => "Op_not".toList
  | .OP_ASSIGN      => "Op_assign".toList
  | .OP_AND         => "Op_and".toList
  | .OP_OR          => "Op_or".toList
  | .LEFTPAREN      => "LeftParen".toList
  | .RIGHTPAREN     => "RightParen".toList
  | .LEFTBRACE      => "LeftBrace".toList
  | .RIGHTBRACE     => "RightBrace".toList
  | .SEMICOLON      => "Semicolon".toList
  | .COMMA          => "Comma".toList
  | .KEYWORD_IF     => "Keyword_if".toList
  | .KEYWORD_ELSE   => "Keyword_else".toList
  | .KEYWORD_WHILE  => "Keyword_while".toList
  | .KEYWORD_PRINT  => "Keyword_print".toList
  | .KEYWORD_PUTC   => "Keyword_putc".toList
  | _               => []

/-- Escape newlines and backslashes back in for printing
(lex.cpp lines 71-80): each replacement inserts two characters and the index
skips past both, so the rewriting is a single left-to-right pass. -/
def sanitize : List Char → List Char
  | [] => []
  | c :: r =>
    if c = '\n' then '\\' :: 'n' :: sanitize r
    else if c = '\\' then '\\' :: '\\' :: sanitize r
    else c :: sanitize r

/-- Rendering of a token value (lex.cpp lines 156-159). -/
def tokenValToChars : TokenVal → List Char
  | .vint n => intToChars n
  | .vstr s => s

/-- Right-justified rendering in a field of width two, as `setw(2)` does
(lex.cpp line 164). -/
def pad2 (n : Nat) : List Char :=
  let d := natToChars n
  if d.length < 2 then ' ' :: d else d

/-- Rendering of one token as one output line (lex.cpp lines 161-178). -/
def tokenToChars (t : Token) : List Char :=
  pad2 t.line ++ "   ".toList ++ pad2 t.column ++ "   ".toList ++
  (match t.name with
   | .STRING =>
     "String            ".toList ++ ['"'] ++ sanitize (tokenValToChars t.value) ++ ['"', '\n']
   | .INTEGER => "Integer           ".toList ++ tokenValToChars t.value ++ ['\n']
   | .IDENTIFIER => "Identifier        ".toList ++ tokenValToChars t.value ++ ['\n']
   | .ERROR => "Error             ".toList ++ tokenValToChars t.value ++ ['\n']
   | .END_OF_INPUT => "End_of_input\n".toList
   | _ => to_cstring t.name ++ ['\n'])

/-- The rendered token table (lex.cpp lines 181-188): header line, separator
line, then the rendering of each token in order. -/
def list_tokens (tokens : List Token) : List Char :=
  "Location  Token name        Value\n".toList ++
  "--------------------------------------\n".toList ++
  (tokens.map tokenToChars).flatten

-- ---------------------------------------------------------------------------
-- Lexer (lex.cpp lines 203-415)
-- ---------------------------------------------------------------------------

/-- Diagnostic text of lex.cpp line 242 / 293. -/
def msgUnrecognized (c : Char) : List Char :=
  "Unrecognized character ".toList ++ ['\x27', c, '\x27']

/-- Diagnostic text of lex.cpp line 318. -/
def msgEofComment : List Char :=
  "End-of-file in comment. Closing comment characters not found.".toList

/-- Diagnostic text of lex.cpp line 326. -/
def msgEmptyChar : List Char := "Empty character constant".toList

/-- Diagnostic text of lex.cpp line 332 / 353: the literal backslash followed
by the character under the cursor. -/
def msgUnknownEscape (c : Char) : List Char :=
  "Unknown escape sequence ".toList ++ ['\\', c]

/-- Diagnostic text of lex.cpp line 335. -/
def msgMultiChar : List Char := "Multi-character constant".toList

/-- Diagnostic text of lex.cpp lines 356-357. -/
def msgEolString : List Char :=
  ("End-of-line while scanning string literal." ++
   " Closing string character not found before end-of-line.").toList

/-- Diagnostic text of lex.cpp lines 359-360. -/
def msgEofString : List Char :=
  ("End-of-file while scanning string literal." ++
   " Closing string character not found.").toList

/-- Diagnostic text of lex.cpp line 395. -/
def msgInvalidNumber : List Char :=
  "Invalid number. Starts like a number, but ends in non-numeric characters.".toList

/-- Diagnostic text of lex.cpp line 400. -/
def msgExceedsMax : List Char := "Number exceeds maximum value".toList

/-- The keyword table (lex.cpp lines 408-415). -/
def keywords : List (List Char × TokenName) :=
  [("else".toList,  .KEYWORD_ELSE),
   ("if".toList,    .KEYWORD_IF),
   ("print".toList, .KEYWORD_PRINT),
   ("putc".toList,  .KEYWORD_PUTC),
   ("while".toList, .KEYWORD_WHILE)]

/-- Error-token production (lex.cpp lines 255-267).  `pre` is the saved
`pre_state` snapshot, `s` the live scanner.  The excerpt length is the
unsigned difference `(string::size_type) s.col - pre_state.col`; when
`s.col < pre.col` that subtraction wraps around to a huge count and the
`string` constructor reads far out of bounds, which we model as `none`.
The excerpt itself is read from the buffer at the `pre_state` position, that
is, from the front of `pre.rest`.  After building the message the cursor is
advanced past one offending character unless it rests on the sentinel. -/
def Lexer.error (pre s : Scanner) (msg : List Char) : Option (Token × Scanner) :=
  if s.col < pre.col then none
  else
    let code := pre.rest.take (s.col - pre.col)
    let text := msg ++ ['\n'] ++ List.replicate 28 ' ' ++
                ['('] ++ natToChars s.line ++ [',', ' '] ++ natToChars s.col ++
                [')', ':', ' '] ++ code
    match s.peek with
    | none => none
    | some c =>
      if c ≠ sentinel then
        match s.advance with
        | none => none
        | some s1 => some (⟨.ERROR, .vstr text, pre.line, pre.col⟩, s1)
      else some (⟨.ERROR, .vstr text, pre.line, pre.col⟩, s)

/-- The whitespace-skipping loop (lex.cpp lines 270-274), on the buffer from
the cursor onward with the line/column counters threaded through: while the
character under the cursor is whitespace, advance. -/
def skipWsCore : List Char → Nat → Nat → Option Scanner
  | [], _, _ => none
  | c :: r, line, col =>
    if c_isspace c then skipWsCore r (stepLine line c) (stepCol col c)
    else some ⟨c :: r, line, col⟩

/-- Whitespace skipping (lex.cpp lines 270-274). -/
def skip_whitespace (s : Scanner) : Option Scanner :=
  skipWsCore s.rest s.line s.col

/-- Token carrying no value (lex.cpp lines 277-280), positioned at the
`pre_state` snapshot. -/
def simple_token (pre : Scanner) (name : TokenName) : Token :=
  ⟨name, .vint 0, pre.line, pre.col⟩

/-- Consume one character and build a plain token (lex.cpp lines 283-287). -/
def simply (pre s : Scanner) (name : TokenName) : Option (Token × Scanner) :=
  match s.advance with
  | none => none
  | some s1 => some (simple_token pre name, s1)

/-- Two-character operator whose second character is mandatory
(lex.cpp lines 290-294). -/
def Lexer.expect (pre s : Scanner) (expected : Char) (name : TokenName) :
    Option (Token × Scanner) :=
  match s.next with
  | none => none
  | some (c, s1) =>
    if c = expected then simply pre s1 name
    else Lexer.error pre s1 (msgUnrecognized c)

/-- Operator with an optional second character (lex.cpp lines 297-302). -/
def Lexer.follow (pre s : Scanner) (expected : Char) (ifyes ifno : TokenName) :
    Option (Token × Scanner) :=
  match s.next with
  | none => none
  | some (c, s1) =>
    if c = expected then simply pre s1 ifyes
    else some (simple_token pre ifno, s1)

/-- The comment-scanning loop of `divide_or_comment` (lex.cpp lines 309-316),
entered with the cursor on the star that opened the comment (the head of the
list).  Each iteration runs the loop condition (an advance-and-peek whose
result `c1` is tested against the sentinel); on a star the loop body
advances again and tests for a slash, and on finding one advances past it
and reports the closed comment.  Returns `.inl s1` when the comment was
closed (cursor just past the closing slash), `.inr sEnd` when the loop
exited at the sentinel (the unterminated case, `sEnd` being the state at the
sentinel), and `none` when a read past the terminator occurred (as happens
when the sentinel itself is consumed by the inner advance-and-peek). -/
def commentCore (c0 : Char) : List Char → Nat → Nat → Option (Scanner ⊕ Scanner)
  | [], _, _ => none
  | c1 :: r1, line, col =>
    if c1 = sentinel then some (.inr (stepTo (c1 :: r1) line col c0))
    else if c1 = '*' then
      match r1 with
      | [] => none
      | c2 :: r2 =>
        if c2 = '/' then
          some (.inl (stepTo r2 (stepLine (stepLine line c0) c1)
                             (stepCol (stepCol col c0) c1) c2))
        else commentCore c2 r2 (stepLine (stepLine line c0) c1)
                               (stepCol (stepCol col c0) c1)
    else commentCore c1 r1 (stepLine line c0) (stepCol col c0)

/-- The comment loop on a scanner state (lex.cpp lines 309-316): the
character under the cursor and the buffer after it feed the core loop. -/
def commentAux (s : Scanner) : Option (Scanner ⊕ Scanner) :=
  match s.rest with
  | [] => none
  | c0 :: r => commentCore c0 r s.line s.col

/-- The closing steps of `char_lit` (lex.cpp lines 335-338), shared by the
escaped and unescaped paths once the ordinal `n` is known: the next
character must be the closing quote (else the multi-character error), then
the cursor advances past it and the integer token is built. -/
def charLitEnd (pre : Scanner) (n : Int) (sm : Scanner) : Option (Token × Scanner) :=
  match sm.next with
  | none => none
  | some (q, s3) =>
    if q ≠ '\x27' then Lexer.error pre s3 msgMultiChar
    else
      match s3.advance with
      | none => none
      | some s4 => some (⟨.INTEGER, .vint n, pre.line, pre.col⟩, s4)

/-- Character-literal scanning (lex.cpp lines 322-339): the value of the
local `int n` at the close-quote check is the scanned ordinal, produced
either directly or through the escape dispatch (whose default case returns
the unknown-escape error early). -/
def char_lit (pre s : Scanner) : Option (Token × Scanner) :=
  match s.next with
  | none => none
  | some (c0, s1) =>
    if c0 = '\x27' then Lexer.error pre s1 msgEmptyChar
    else if c0 = '\\' then
      match s1.next with
      | none => none
      | some (e, s2) =>
        if e = 'n' then charLitEnd pre (charToInt '\n') s2
        else if e = '\\' then charLitEnd pre (charToInt '\\') s2
        else Lexer.error pre s2 (msgUnknownEscape e)
    else charLitEnd pre (charToInt c0) s1

/-- The accumulation loop of `string_lit` (lex.cpp lines 346-363), on the
buffer with the counters and the accumulated text threaded through.  Each
iteration runs the loop condition (an advance-and-peek whose result `c1` is
tested against the closing quote); the body dispatches on `c1`: backslash
escape (advancing once more and continuing), raw newline error, sentinel
error, or accumulate. -/
def stringCore (pre : Scanner) (c0 : Char) : List Char → Nat → Nat → List Char →
    Option (Token × Scanner)
  | [], _, _, _ => none
  | c1 :: r1, line, col, text =>
    if c1 = '"' then
      some (⟨.STRING, .vstr text, pre.line, pre.col⟩,
            stepTo r1 (stepLine line c0) (stepCol col c0) c1)
    else if c1 = '\\' then
      match r1 with
      | [] => none
      | c2 :: r2 =>
        if c2 = 'n' then
          stringCore pre c2 r2 (stepLine (stepLine line c0) c1)
                               (stepCol (stepCol col c0) c1) (text ++ ['\n'])
        else if c2 = '\\' then
          stringCore pre c2 r2 (stepLine (stepLine line c0) c1)
                               (stepCol (stepCol col c0) c1) (text ++ ['\\'])
        else
          Lexer.error pre
            (stepTo r1 (stepLine line c0) (stepCol col c0) c1)
            (msgUnknownEscape c2)
    else if c1 = '\n' then
      Lexer.error pre (stepTo (c1 :: r1) line col c0) msgEolString
    else if c1 = sentinel then
      Lexer.error pre (stepTo (c1 :: r1) line col c0) msgEofString
    else stringCore pre c1 r1 (stepLine line c0) (stepCol col c0) (text ++ [c1])

/-- String-literal scanning (lex.cpp lines 342-367): run the loop with an
empty accumulator, entered with the cursor on the opening quote. -/
def string_lit (pre s : Scanner) : Option (Token × Scanner) :=
  match s.rest with
  | [] => none
  | c0 :: r => stringCore pre c0 r s.line s.col []

/-- Identifier-start classification (lex.cpp line 370). -/
def is_id_start (c : Char) : Bool := c_isalpha c || c = '_'

/-- Identifier-continuation classification (lex.cpp line 371). -/
def is_id_end (c : Char) : Bool := c_isalnum c || c = '_'

/-- The accumulation loop shared by `identifier` (lex.cpp line 379) and
`integer_lit` (lex.cpp line 392): an advance-and-peek yields `c1`; while
`cond c1` holds, extend `text` with it and continue; stop with the cursor on
the first failing character, which is returned alongside. -/
def scanWhileCore (cond : Char → Bool) (c0 : Char) : List Char → Nat → Nat → List Char →
    Option (List Char × Char × Scanner)
  | [], _, _, _ => none
  | c1 :: r1, line, col, text =>
    if cond c1 then
      scanWhileCore cond c1 r1 (stepLine line c0) (stepCol col c0) (text ++ [c1])
    else some (text, c1, stepTo (c1 :: r1) line col c0)

/-- The accumulation loop on a scanner state. -/
def scanWhile (cond : Char → Bool) (s : Scanner) (text : List Char) :
    Option (List Char × Char × Scanner) :=
  match s.rest with
  | [] => none
  | c0 :: r => scanWhileCore cond c0 r s.line s.col text

/-- Identifier and keyword scanning (lex.cpp lines 375-385): seed the text
with the character under the cursor, extend while `is_id_end`, then look the
text up in the keyword table. -/
def identifier (pre s : Scanner) : Option (Token × Scanner) :=
  match s.peek with
  | none => none
  | some c0 =>
    match scanWhile is_id_end s [c0] with
    | none => none
    | some (text, _, s1) =>
      match keywords.lookup text with
      | some kw => some (⟨kw, .vint 0, pre.line, pre.col⟩, s1)
      | none => some (⟨.IDENTIFIER, .vstr text, pre.line, pre.col⟩, s1)

/-- Integer-literal scanning (lex.cpp lines 388-404).  The digit run is
parsed by `stol` into a 64-bit `long`; values beyond that range raise
`out_of_range` (the "exceeds maximum value" error), and the surviving value
is narrowed into the 32-bit `int` field of the token.  The
`invalid_argument` catch is unreachable because the text is all digits. -/
def integer_lit (pre s : Scanner) : Option (Token × Scanner) :=
  match s.peek with
  | none => none
  | some c0 =>
    match scanWhile c_isdigit s [c0] with
    | none => none
    | some (text, c, s1) =>
      if is_id_start c then Lexer.error pre s1 msgInvalidNumber
      else if digitsToNat text > 9223372036854775807 then
        Lexer.error pre s1 msgExceedsMax
      else some (⟨.INTEGER, .vint (toInt32 (digitsToNat text)), pre.line, pre.col⟩, s1)

/-- Division or comment (lex.cpp lines 305-319), parametric in the token
producer `nx` that the comment path re-enters (in the source this is the
member call of `next_token()` on line 314): a slash not followed by a star
is the divide operator; otherwise the comment loop runs, and a closed
comment recurses into `nx` while end-of-input inside the comment is the
unterminated-comment error. -/
def divideOrCommentFuel (nx : Scanner → Option (Token × Scanner))
    (pre s : Scanner) : Option (Token × Scanner) :=
  match s.next with
  | none => none
  | some (c1, s1) =>
    if c1 ≠ '*' then some (simple_token pre .OP_DIVIDE, s1)
    else
      match commentAux s1 with
      | none => none
      | some (.inr sEnd) => Lexer.error pre sEnd msgEofComment
      | some (.inl s2) => nx s2

/-- Token production (lex.cpp lines 212-246): skip whitespace, snapshot the
cursor as `pre_state` (here `s0`, passed to every construction), and
dispatch on the current character.  The self-recursion of the comment path
back into `next_token` is bounded by the explicit fuel (each skipped
comment consumes at least four characters, so the `rest.length + 1` fuel
that `next_token` supplies never runs out). -/
def nextTokenFuel : Nat → Scanner → Option (Token × Scanner)
  | 0, _ => none
  | fuel + 1, s =>
    match skip_whitespace s with
    | none => none
    | some s0 =>
      match s0.peek with
      | none => none
      | some c =>
        if c = '*' then simply s0 s0 .OP_MULTIPLY
        else if c = '%' then simply s0 s0 .OP_MOD
        else if c = '+' then simply s0 s0 .OP_ADD
        else if c = '-' then simply s0 s0 .OP_SUBTRACT
        else if c = '{' then simply s0 s0 .LEFTBRACE
        else if c = '}' then simply s0 s0 .RIGHTBRACE
        else if c = '(' then simply s0 s0 .LEFTPAREN
        else if c = ')' then simply s0 s0 .RIGHTPAREN
        else if c = ';' then simply s0 s0 .SEMICOLON
        else if c = ',' then simply s0 s0 .COMMA
        else if c = '&' then Lexer.expect s0 s0 '&' .OP_AND
        else if c = '|' then Lexer.expect s0 s0 '|' .OP_OR
        else if c = '<' then Lexer.follow s0 s0 '=' .OP_LESSEQUAL .OP_LESS
        else if c = '>' then Lexer.follow s0 s0 '=' .OP_GREATEREQUAL .OP_GREATER
        else if c = '=' then Lexer.follow s0 s0 '=' .OP_EQUAL .OP_ASSIGN
        else if c = '!' then Lexer.follow s0 s0 '=' .OP_NOTEQUAL .OP_NOT
        else if c = '/' then divideOrCommentFuel (nextTokenFuel fuel) s0 s0
        else if c = '\x27' then char_lit s0 s0
        else if c = '"' then string_lit s0 s0
        else if c = sentinel then some (simple_token s0 .END_OF_INPUT, s0)
        else if is_id_start c then identifier s0 s0
        else if c_isdigit c then integer_lit s0 s0
        else Lexer.error s0 s0 (msgUnrecognized c)

/-- Token production (lex.cpp lines 212-246), with fuel the comment
recursion can never exhaust. -/
def next_token (s : Scanner) : Option (Token × Scanner) :=
  nextTokenFuel (s.rest.length + 1) s

/-- Division or comment (lex.cpp lines 305-319) as the standalone member
function of the source: the comment path re-enters `next_token`. -/
def divide_or_comment (pre s : Scanner) : Option (Token × Scanner) :=
  divideOrCommentFuel next_token pre s

/-- End-of-input test used by the driver (lex.cpp line 209). -/
def has_more (s : Scanner) : Option Bool :=
  match s.peek with
  | none => none
  | some c => some (c ≠ sentinel)

/-- The token-collection loop of `main` (lex.cpp lines 425-428), with
explicit fuel; the fuel chosen by `lexProgram` is always sufficient. -/
def lexAllAux : Nat → Scanner → List Token → Option (List Token)
  | 0, _, _ => none
  | fuel + 1, s, acc =>
    match has_more s with
    | none => none
    | some false => some acc
    | some true =>
      match next_token s with
      | none => none
      | some (t, s1) => lexAllAux fuel s1 (acc ++ [t])

/-- The initial scanner over a program text: the C++ buffer is the text
followed by the null terminator, with line and column starting at 1. -/
def initScanner (input : List Char) : Scanner :=
  ⟨input ++ [sentinel], 1, 1⟩

/-- Lexing a whole program as `main` does (lex.cpp lines 418-432): collect
tokens while `has_more` holds.  `none` means the run performed an
out-of-bounds read (or, impossibly, exhausted its fuel). -/
def lexProgram (input : List Char) : Option (List Token) :=
  lexAllAux (input.length + 2) (initScanner input) []

/-- Everything from the cursor to the end of the input is whitespace or
block comments: the situations in which `next_token` reaches the sentinel
and produces the end-of-input token.  Stated on the buffer from the cursor
onward; `mid` stands for a comment body as the scanning loop of lex.cpp
lines 309-316 accepts one. -/
inductive TrailingJunk : List Char → Prop where
  | atEnd (r : List Char) : TrailingJunk (sentinel :: r)
  | ws (c : Char) (r : List Char) : c_isspace c → TrailingJunk r → TrailingJunk (c :: r)
  | comment (mid r : List Char) : TrailingJunk r →
      TrailingJunk ('/' :: '*' :: mid ++ '*' :: '/' :: r)

-- ---------------------------------------------------------------------------
-- Basic facts about the scanner operations
-- ---------------------------------------------------------------------------

theorem stepTo_rest (rest : List Char) (line col : Nat) (c : Char) :
    (stepTo rest line col c).rest = rest := rfl

theorem Scanner.advance_shape {s s1 : Scanner} (h : s.advance = some s1) :
    ∃ c, s.rest = c :: s1.rest := by
  rcases hr : s.rest with _ | ⟨c, r⟩ <;> rw [Scanner.advance, hr] at h
  · exact absurd h (by simp)
  · refine ⟨c, ?_⟩
    cases h
    rw [stepTo_rest]

theorem Scanner.advance_length {s s1 : Scanner} (h : s.advance = some s1) :
    s1.rest.length + 1 = s.rest.length := by
  obtain ⟨c, hc⟩ := Scanner.advance_shape h
  simp [hc]

theorem Scanner.next_shape {s : Scanner} {c : Char} {s1 : Scanner}
    (h : s.next = some (c, s1)) :
    (∃ a, s.rest = a :: s1.rest) ∧ s1.rest.head? = some c := by
  rw [Scanner.next] at h
  rcases ha : s.advance with _ | s2 <;> rw [ha] at h
  · exact absurd h (by simp)
  · simp only [] at h
    rcases hp : s2.peek with _ | c2 <;> rw [hp] at h <;> simp at h
    obtain ⟨rfl, rfl⟩ := h
    exact ⟨Scanner.advance_shape ha, hp⟩

theorem Scanner.next_length {s : Scanner} {c : Char} {s1 : Scanner}
    (h : s.next = some (c, s1)) : s1.rest.length + 1 = s.rest.length := by
  obtain ⟨⟨a, ha⟩, _⟩ := Scanner.next_shape h
  simp [ha]

theorem Scanner.next_suffix {s : Scanner} {c : Char} {s1 : Scanner}
    (h : s.next = some (c, s1)) : s1.rest <:+ s.rest := by
  obtain ⟨⟨a, ha⟩, _⟩ := Scanner.next_shape h
  rw [ha]
  exact List.suffix_cons a s1.rest

-- ---------------------------------------------------------------------------
-- Specifications of the small token builders
-- ---------------------------------------------------------------------------

theorem error_spec {pre s : Scanner} {msg : List Char} {t : Token} {s1 : Scanner}
    (h : Lexer.error pre s msg = some (t, s1)) :
    t.name = TokenName.ERROR ∧ t.line = pre.line ∧ t.column = pre.col ∧
    s1.rest <:+ s.rest := by
  rw [Lexer.error] at h
  split at h
  · exact absurd h (by simp)
  · rcases hp : s.peek with _ | c <;> rw [hp] at h
    · exact absurd h (by simp)
    · simp only [] at h
      split at h
      · rcases ha : s.advance with _ | s2 <;> rw [ha] at h
        · exact absurd h (by simp)
        · simp only [Option.some.injEq, Prod.mk.injEq] at h
          obtain ⟨rfl, rfl⟩ := h
          obtain ⟨a, hsh⟩ := Scanner.advance_shape ha
          exact ⟨rfl, rfl, rfl, by rw [hsh]; exact List.suffix_cons a _⟩
      · simp only [Option.some.injEq, Prod.mk.injEq] at h
        obtain ⟨rfl, rfl⟩ := h
        exact ⟨rfl, rfl, rfl, List.suffix_refl _⟩

theorem simply_spec {pre s : Scanner} {nm : TokenName} {t : Token} {s1 : Scanner}
    (h : simply pre s nm = some (t, s1)) :
    t = simple_token pre nm ∧ ∃ a, s.rest = a :: s1.rest := by
  rw [simply] at h
  rcases ha : s.advance with _ | s2 <;> rw [ha] at h
  · exact absurd h (by simp)
  · simp only [Option.some.injEq, Prod.mk.injEq] at h
    obtain ⟨rfl, rfl⟩ := h
    exact ⟨rfl, Scanner.advance_shape ha⟩

theorem expect_spec {pre s : Scanner} {e : Char} {nm : TokenName} {t : Token}
    {s1 : Scanner} (h : Lexer.expect pre s e nm = some (t, s1)) :
    (t.name = nm ∨ t.name = TokenName.ERROR) ∧
    s1.rest <:+ s.rest ∧ s1.rest.length < s.rest.length := by
  rw [Lexer.expect] at h
  rcases hn : s.next with _ | ⟨c, s2⟩ <;> rw [hn] at h
  · exact absurd h (by simp)
  · have hlen := Scanner.next_length hn
    have hsuf := Scanner.next_suffix hn
    simp only [] at h
    split at h
    · obtain ⟨rfl, a, hsh⟩ := simply_spec h
      refine ⟨Or.inl rfl, ?_, ?_⟩
      · exact ((hsh ▸ List.suffix_cons a _ : s1.rest <:+ s2.rest).trans hsuf)
      · have : s1.rest.length + 1 = s2.rest.length := by simp [hsh]
        omega
    · obtain ⟨hne, _, _, hsub⟩ := error_spec h
      refine ⟨Or.inr hne, hsub.trans hsuf, ?_⟩
      have := hsub.length_le
      omega

theorem follow_spec {pre s : Scanner} {e : Char} {y n : TokenName} {t : Token}
    {s1 : Scanner} (h : Lexer.follow pre s e y n = some (t, s1)) :
    (t.name = y ∨ t.name = n) ∧
    s1.rest <:+ s.rest ∧ s1.rest.length < s.rest.length := by
  rw [Lexer.follow] at h
  rcases hn : s.next with _ | ⟨c, s2⟩ <;> rw [hn] at h
  · exact absurd h (by simp)
  · have hlen := Scanner.next_length hn
    have hsuf := Scanner.next_suffix hn
    simp only [] at h
    split at h
    · obtain ⟨rfl, a, hsh⟩ := simply_spec h
      refine ⟨Or.inl rfl, ?_, ?_⟩
      · exact ((hsh ▸ List.suffix_cons a _ : s1.rest <:+ s2.rest).trans hsuf)
      · have : s1.rest.length + 1 = s2.rest.length := by simp [hsh]
        omega
    · simp only [Option.some.injEq, Prod.mk.injEq] at h
      obtain ⟨rfl, rfl⟩ := h
      exact ⟨Or.inr rfl, hsuf, by omega⟩


-- ---------------------------------------------------------------------------
-- Shapes of the scanning loops
-- ---------------------------------------------------------------------------

theorem skipWsCore_shape :
    ∀ (r : List Char) (line col : Nat) {s0 : Scanner},
    skipWsCore r line col = some s0 →
    (∃ ws, r = ws ++ s0.rest ∧ ∀ c ∈ ws, c_isspace c) ∧
    ∃ c r2, s0.rest = c :: r2 ∧ ¬ c_isspace c := by
  intro r line col
  induction r, line, col using skipWsCore.induct with
  | case1 line col =>
    intro s0 h
    rw [skipWsCore.eq_def] at h
    exact absurd h (by simp)
  | case2 c r line col hsp ih =>
    intro s0 h
    rw [skipWsCore.eq_def] at h
    try dsimp only at h
    rw [if_pos hsp] at h
    obtain ⟨⟨ws, hws, hall⟩, hstop⟩ := ih h
    refine ⟨⟨c :: ws, by simp [hws], ?_⟩, hstop⟩
    intro d hd
    rcases List.mem_cons.mp hd with hda | hd2
    · rw [hda]; exact hsp
    · exact hall d hd2
  | case3 c r line col hsp =>
    intro s0 h
    rw [skipWsCore.eq_def] at h
    try dsimp only at h
    rw [if_neg hsp] at h
    cases h
    exact ⟨⟨[], by simp, by simp⟩, ⟨c, r, rfl, by simpa using hsp⟩⟩

theorem skip_whitespace_shape {s s0 : Scanner} (h : skip_whitespace s = some s0) :
    (∃ ws, s.rest = ws ++ s0.rest ∧ ∀ c ∈ ws, c_isspace c) ∧
    ∃ c r2, s0.rest = c :: r2 ∧ ¬ c_isspace c := by
  rw [skip_whitespace] at h
  exact skipWsCore_shape s.rest s.line s.col h

theorem skip_whitespace_suffix {s s0 : Scanner} (h : skip_whitespace s = some s0) :
    s0.rest <:+ s.rest := by
  obtain ⟨⟨ws, hws, _⟩, _⟩ := skip_whitespace_shape h
  exact ⟨ws, hws.symm⟩

theorem commentCore_inl_shape :
    ∀ (c0 : Char) (r : List Char) (line col : Nat) {s2 : Scanner},
    commentCore c0 r line col = some (.inl s2) →
    ∃ mid, r = mid ++ '*' :: '/' :: s2.rest := by
  intro c0 r line col
  induction c0, r, line, col using commentCore.induct with
  | case1 c0 line col =>
    intro s2 h
    rw [commentCore.eq_def] at h
    exact absurd h (by simp)
  | case2 c0 r line col =>
    intro s2 h
    rw [commentCore.eq_def] at h
    try dsimp only at h
    rw [if_pos rfl] at h
    exact absurd h (by simp)
  | case3 c0 line col hne =>
    intro s2 h
    rw [commentCore.eq_def] at h
    try dsimp only at h
    rw [if_neg hne, if_pos rfl] at h
    exact absurd h (by simp)
  | case4 c0 line col r hne =>
    intro s2 h
    rw [commentCore.eq_def] at h
    try dsimp only at h
    rw [if_neg hne, if_pos rfl] at h
    try dsimp only at h
    rw [if_pos rfl] at h
    simp only [Option.some.injEq, Sum.inl.injEq] at h
    refine ⟨[], ?_⟩
    rw [← h, stepTo_rest]
    rfl
  | case5 c0 line col c r hcs hne ih =>
    intro s2 h
    rw [commentCore.eq_def] at h
    try dsimp only at h
    rw [if_neg hne, if_pos rfl] at h
    try dsimp only at h
    rw [if_neg hcs] at h
    obtain ⟨mid, hm⟩ := ih h
    exact ⟨'*' :: c :: mid, by simp [hm]⟩
  | case6 c0 c r line col h1 h2 ih =>
    intro s2 h
    rw [commentCore.eq_def] at h
    try dsimp only at h
    rw [if_neg h1, if_neg h2] at h
    obtain ⟨mid, hm⟩ := ih h
    exact ⟨c :: mid, by simp [hm]⟩

theorem commentCore_inr_shape :
    ∀ (c0 : Char) (r : List Char) (line col : Nat) {sEnd : Scanner},
    commentCore c0 r line col = some (.inr sEnd) →
    (∃ mid, r = mid ++ sEnd.rest) ∧ sEnd.rest.head? = some sentinel := by
  intro c0 r line col
  induction c0, r, line, col using commentCore.induct with
  | case1 c0 line col =>
    intro sEnd h
    rw [commentCore.eq_def] at h
    exact absurd h (by simp)
  | case2 c0 r line col =>
    intro sEnd h
    rw [commentCore.eq_def] at h
    try dsimp only at h
    rw [if_pos rfl] at h
    simp only [Option.some.injEq, Sum.inr.injEq] at h
    refine ⟨⟨[], ?_⟩, ?_⟩ <;> rw [← h, stepTo_rest]
    · rfl
    · rfl
  | case3 c0 line col hne =>
    intro sEnd h
    rw [commentCore.eq_def] at h
    try dsimp only at h
    rw [if_neg hne, if_pos rfl] at h
    exact absurd h (by simp)
  | case4 c0 line col r hne =>
    intro sEnd h
    rw [commentCore.eq_def] at h
    try dsimp only at h
    rw [if_neg hne, if_pos rfl] at h
    try dsimp only at h
    rw [if_pos rfl] at h
    exact absurd h (by simp)
  | case5 c0 line col c r hcs hne ih =>
    intro sEnd h
    rw [commentCore.eq_def] at h
    try dsimp only at h
    rw [if_neg hne, if_pos rfl] at h
    try dsimp only at h
    rw [if_neg hcs] at h
    obtain ⟨⟨mid, hm⟩, hh⟩ := ih h
    exact ⟨⟨'*' :: c :: mid, by simp [hm]⟩, hh⟩
  | case6 c0 c r line col h1 h2 ih =>
    intro sEnd h
    rw [commentCore.eq_def] at h
    try dsimp only at h
    rw [if_neg h1, if_neg h2] at h
    obtain ⟨⟨mid, hm⟩, hh⟩ := ih h
    exact ⟨⟨c :: mid, by simp [hm]⟩, hh⟩

theorem commentAux_inl_shape {s s2 : Scanner} (h : commentAux s = some (.inl s2)) :
    ∃ c0 mid, s.rest = c0 :: mid ++ '*' :: '/' :: s2.rest := by
  rw [commentAux] at h
  rcases hr : s.rest with _ | ⟨c0, r⟩ <;> rw [hr] at h
  · exact absurd h (by simp)
  · obtain ⟨mid, hm⟩ := commentCore_inl_shape c0 r s.line s.col h
    exact ⟨c0, mid, by simp [hm]⟩

theorem commentAux_inr_shape {s sEnd : Scanner} (h : commentAux s = some (.inr sEnd)) :
    (∃ c0 mid, s.rest = c0 :: mid ++ sEnd.rest) ∧ sEnd.rest.head? = some sentinel := by
  rw [commentAux] at h
  rcases hr : s.rest with _ | ⟨c0, r⟩ <;> rw [hr] at h
  · exact absurd h (by simp)
  · obtain ⟨⟨mid, hm⟩, hh⟩ := commentCore_inr_shape c0 r s.line s.col h
    exact ⟨⟨c0, mid, by simp [hm]⟩, hh⟩

theorem stringCore_spec {pre : Scanner} :
    ∀ (c0 : Char) (r : List Char) (line col : Nat) (text : List Char)
      {t : Token} {s1 : Scanner},
    stringCore pre c0 r line col text = some (t, s1) →
    (t.name = TokenName.STRING ∨ t.name = TokenName.ERROR) ∧ s1.rest <:+ r := by
  intro c0 r line col text
  induction c0, r, line, col, text using stringCore.induct pre with
  | case1 c0 line col text =>
    intro t s1 h
    rw [stringCore.eq_def] at h
    exact absurd h (by simp)
  | case2 c0 r1 line col text =>
    intro t s1 h
    rw [stringCore.eq_def] at h
    try dsimp only at h
    rw [if_pos rfl] at h
    simp only [Option.some.injEq, Prod.mk.injEq] at h
    obtain ⟨rfl, rfl⟩ := h
    exact ⟨Or.inl rfl, by rw [stepTo_rest]; exact List.suffix_cons _ _⟩
  | case3 c0 line col text hq =>
    intro t s1 h
    rw [stringCore.eq_def] at h
    try dsimp only at h
    rw [if_neg hq, if_pos rfl] at h
    exact absurd h (by simp)
  | case4 c0 line col text r hq ih =>
    intro t s1 h
    rw [stringCore.eq_def] at h
    try dsimp only at h
    rw [if_neg hq, if_pos rfl] at h
    try dsimp only at h
    rw [if_pos rfl] at h
    obtain ⟨hn, hs⟩ := ih h
    exact ⟨hn, hs.trans ((List.suffix_cons 'n' r).trans (List.suffix_cons '\\' _))⟩
  | case5 c0 line col text r hq hn2 ih =>
    intro t s1 h
    rw [stringCore.eq_def] at h
    try dsimp only at h
    rw [if_neg hq, if_pos rfl] at h
    try dsimp only at h
    rw [if_neg hn2, if_pos rfl] at h
    obtain ⟨hn, hs⟩ := ih h
    exact ⟨hn, hs.trans ((List.suffix_cons '\\' r).trans (List.suffix_cons '\\' _))⟩
  | case6 c0 line col text c r hcn hcb hq =>
    intro t s1 h
    rw [stringCore.eq_def] at h
    try dsimp only at h
    rw [if_neg hq, if_pos rfl] at h
    try dsimp only at h
    rw [if_neg hcn, if_neg hcb] at h
    obtain ⟨hname, _, _, hsub⟩ := error_spec h
    rw [stepTo_rest] at hsub
    exact ⟨Or.inr hname, hsub.trans (List.suffix_cons '\\' _)⟩
  | case7 c0 r1 line col text h1 h2 =>
    intro t s1 h
    rw [stringCore.eq_def] at h
    try dsimp only at h
    rw [if_neg h1, if_neg h2, if_pos rfl] at h
    obtain ⟨hname, _, _, hsub⟩ := error_spec h
    rw [stepTo_rest] at hsub
    exact ⟨Or.inr hname, hsub⟩
  | case8 c0 r1 line col text h1 h2 h3 =>
    intro t s1 h
    rw [stringCore.eq_def] at h
    try dsimp only at h
    rw [if_neg h1, if_neg h2, if_neg h3, if_pos rfl] at h
    obtain ⟨hname, _, _, hsub⟩ := error_spec h
    rw [stepTo_rest] at hsub
    exact ⟨Or.inr hname, hsub⟩
  | case9 c0 c1 r1 line col text h1 h2 h3 h4 ih =>
    intro t s1 h
    rw [stringCore.eq_def] at h
    try dsimp only at h
    rw [if_neg h1, if_neg h2, if_neg h3, if_neg h4] at h
    obtain ⟨hn, hs⟩ := ih h
    exact ⟨hn, hs.trans (List.suffix_cons c1 r1)⟩

theorem string_lit_spec {pre s : Scanner} {t : Token} {s1 : Scanner}
    (h : string_lit pre s = some (t, s1)) :
    (t.name = TokenName.STRING ∨ t.name = TokenName.ERROR) ∧
    s1.rest <:+ s.rest ∧ s1.rest.length < s.rest.length := by
  rw [string_lit] at h
  rcases hr : s.rest with _ | ⟨c0, r⟩ <;> rw [hr] at h
  · exact absurd h (by simp)
  · obtain ⟨hn, hs⟩ := stringCore_spec c0 r s.line s.col [] h
    have hl := hs.length_le
    refine ⟨hn, ?_, ?_⟩
    · exact hs.trans (List.suffix_cons c0 r)
    · simp only [List.length_cons]; omega

theorem scanWhileCore_spec {cond : Char → Bool} :
    ∀ (c0 : Char) (r : List Char) (line col : Nat) (text : List Char)
      {text2 : List Char} {c : Char} {s1 : Scanner},
    scanWhileCore cond c0 r line col text = some (text2, c, s1) →
    s1.rest <:+ r ∧ s1.rest.head? = some c := by
  intro c0 r line col text
  induction c0, r, line, col, text using scanWhileCore.induct cond with
  | case1 c0 line col text =>
    intro text2 c s1 h
    rw [scanWhileCore.eq_def] at h
    exact absurd h (by simp)
  | case2 c0 c1 r1 line col text hc ih =>
    intro text2 c s1 h
    rw [scanWhileCore.eq_def] at h
    try dsimp only at h
    rw [if_pos hc] at h
    obtain ⟨hs, hh⟩ := ih h
    exact ⟨hs.trans (List.suffix_cons c1 r1), hh⟩
  | case3 c0 c1 r1 line col text hc =>
    intro text2 c s1 h
    rw [scanWhileCore.eq_def] at h
    try dsimp only at h
    rw [if_neg hc] at h
    simp only [Option.some.injEq, Prod.mk.injEq] at h
    obtain ⟨-, rfl, rfl⟩ := h
    rw [stepTo_rest]
    exact ⟨List.suffix_refl _, rfl⟩

theorem scanWhile_spec {cond : Char → Bool} {s : Scanner} {text text2 : List Char}
    {c : Char} {s1 : Scanner} (h : scanWhile cond s text = some (text2, c, s1)) :
    s1.rest <:+ s.rest ∧ s1.rest.length < s.rest.length ∧ s1.rest.head? = some c := by
  rw [scanWhile] at h
  rcases hr : s.rest with _ | ⟨c0, r⟩ <;> rw [hr] at h
  · exact absurd h (by simp)
  · obtain ⟨hs, hh⟩ := scanWhileCore_spec c0 r s.line s.col text h
    have hl := hs.length_le
    refine ⟨?_, ?_, hh⟩
    · exact hs.trans (List.suffix_cons c0 r)
    · simp only [List.length_cons]; omega

theorem keywords_lookup_ne {text : List Char} {kw : TokenName}
    (h : keywords.lookup text = some kw) : kw ≠ TokenName.END_OF_INPUT := by
  simp only [keywords, List.lookup] at h
  repeat' split at h
  all_goals cases h
  all_goals decide


-- ---------------------------------------------------------------------------
-- Specifications of the literal scanners
-- ---------------------------------------------------------------------------

theorem error_spec_strict {pre s : Scanner} {msg : List Char} {t : Token}
    {s1 : Scanner} {c : Char} (h : Lexer.error pre s msg = some (t, s1))
    (hp : s.peek = some c) (hc : c ≠ sentinel) :
    s1.rest.length < s.rest.length := by
  rw [Lexer.error] at h
  split at h
  · exact absurd h (by simp)
  · rw [hp] at h
    simp only [] at h
    rw [if_pos hc] at h
    rcases ha : s.advance with _ | s2 <;> rw [ha] at h
    · exact absurd h (by simp)
    · simp only [Option.some.injEq, Prod.mk.injEq] at h
      obtain ⟨rfl, rfl⟩ := h
      have := Scanner.advance_length ha
      omega

theorem charLitEnd_spec {pre : Scanner} {n : Int} {sm : Scanner} {t : Token}
    {s1 : Scanner} (h : charLitEnd pre n sm = some (t, s1)) :
    (t.name = TokenName.INTEGER ∨ t.name = TokenName.ERROR) ∧
    s1.rest <:+ sm.rest ∧ s1.rest.length < sm.rest.length := by
  rw [charLitEnd] at h
  rcases hn3 : sm.next with _ | ⟨q, s3⟩ <;> rw [hn3] at h
  · exact absurd h (by simp)
  have hsuf := Scanner.next_suffix hn3
  have hlen := Scanner.next_length hn3
  try dsimp only at h
  split at h
  · obtain ⟨hname, _, _, hsub⟩ := error_spec h
    exact ⟨Or.inr hname, hsub.trans hsuf, by have := hsub.length_le; omega⟩
  · rcases ha : s3.advance with _ | s4 <;> rw [ha] at h
    · exact absurd h (by simp)
    · simp only [Option.some.injEq, Prod.mk.injEq] at h
      obtain ⟨rfl, rfl⟩ := h
      obtain ⟨a, hsh⟩ := Scanner.advance_shape ha
      have h2 : s4.rest.length + 1 = s3.rest.length := by simp [hsh]
      refine ⟨Or.inl rfl, ?_, by omega⟩
      exact (hsh ▸ List.suffix_cons a _ : s4.rest <:+ s3.rest).trans hsuf

theorem char_lit_spec {pre s : Scanner} {t : Token} {s1 : Scanner}
    (h : char_lit pre s = some (t, s1)) :
    (t.name = TokenName.INTEGER ∨ t.name = TokenName.ERROR) ∧
    s1.rest <:+ s.rest ∧ s1.rest.length < s.rest.length := by
  rw [char_lit] at h
  rcases hn : s.next with _ | ⟨c0, sA⟩ <;> rw [hn] at h
  · exact absurd h (by simp)
  have hsufA := Scanner.next_suffix hn
  have hlenA := Scanner.next_length hn
  try dsimp only at h
  split at h
  · obtain ⟨hname, _, _, hsub⟩ := error_spec h
    exact ⟨Or.inr hname, hsub.trans hsufA, by have := hsub.length_le; omega⟩
  · split at h
    · rcases hn2 : sA.next with _ | ⟨e, sB⟩ <;> rw [hn2] at h
      · exact absurd h (by simp)
      have hsufB := Scanner.next_suffix hn2
      have hlenB := Scanner.next_length hn2
      try dsimp only at h
      split at h
      · obtain ⟨hname, hsub, hl⟩ := charLitEnd_spec h
        exact ⟨hname, (hsub.trans hsufB).trans hsufA, by have := hsub.length_le; omega⟩
      · split at h
        · obtain ⟨hname, hsub, hl⟩ := charLitEnd_spec h
          exact ⟨hname, (hsub.trans hsufB).trans hsufA, by have := hsub.length_le; omega⟩
        · obtain ⟨hname, _, _, hsub⟩ := error_spec h
          exact ⟨Or.inr hname, (hsub.trans hsufB).trans hsufA,
                 by have := hsub.length_le; omega⟩
    · obtain ⟨hname, hsub, hl⟩ := charLitEnd_spec h
      exact ⟨hname, hsub.trans hsufA, by have := hsub.length_le; omega⟩

theorem identifier_spec {pre s : Scanner} {t : Token} {s1 : Scanner}
    (h : identifier pre s = some (t, s1)) :
    t.name ≠ TokenName.END_OF_INPUT ∧ s1.rest <:+ s.rest ∧
    s1.rest.length < s.rest.length := by
  rw [identifier] at h
  rcases hp : s.peek with _ | c0 <;> rw [hp] at h
  · exact absurd h (by simp)
  try dsimp only at h
  rcases hw : scanWhile is_id_end s [c0] with _ | ⟨text, c, sB⟩ <;> rw [hw] at h
  · exact absurd h (by simp)
  obtain ⟨hs, hl, _⟩ := scanWhile_spec hw
  try dsimp only at h
  rcases hk : keywords.lookup text with _ | kw <;> rw [hk] at h <;>
    simp only [Option.some.injEq, Prod.mk.injEq] at h
  · obtain ⟨rfl, rfl⟩ := h
    exact ⟨by simp, hs, hl⟩
  · obtain ⟨rfl, rfl⟩ := h
    exact ⟨keywords_lookup_ne hk, hs, hl⟩

theorem integer_lit_spec {pre s : Scanner} {t : Token} {s1 : Scanner}
    (h : integer_lit pre s = some (t, s1)) :
    (t.name = TokenName.INTEGER ∨ t.name = TokenName.ERROR) ∧
    s1.rest <:+ s.rest ∧ s1.rest.length < s.rest.length := by
  rw [integer_lit] at h
  rcases hp : s.peek with _ | c0 <;> rw [hp] at h
  · exact absurd h (by simp)
  try dsimp only at h
  rcases hw : scanWhile c_isdigit s [c0] with _ | ⟨text, c, sB⟩ <;> rw [hw] at h
  · exact absurd h (by simp)
  obtain ⟨hs, hl, _⟩ := scanWhile_spec hw
  try dsimp only at h
  split at h
  · obtain ⟨hname, _, _, hsub⟩ := error_spec h
    exact ⟨Or.inr hname, hsub.trans hs, by have := hsub.length_le; omega⟩
  · split at h
    · obtain ⟨hname, _, _, hsub⟩ := error_spec h
      exact ⟨Or.inr hname, hsub.trans hs, by have := hsub.length_le; omega⟩
    · simp only [Option.some.injEq, Prod.mk.injEq] at h
      obtain ⟨rfl, rfl⟩ := h
      exact ⟨Or.inl rfl, hs, hl⟩

theorem TrailingJunk_append_ws :
    ∀ (ws r : List Char), (∀ c ∈ ws, c_isspace c) → TrailingJunk r →
    TrailingJunk (ws ++ r) := by
  intro ws
  induction ws with
  | nil => intro r _ hj; simpa using hj
  | cons c ws ih =>
    intro r hall hj
    exact TrailingJunk.ws c (ws ++ r) (hall c (by simp))
      (ih r (fun d hd => hall d (by simp [hd])) hj)


-- ---------------------------------------------------------------------------
-- The progress and trailing-junk properties of token production
-- ---------------------------------------------------------------------------

theorem divideOrCommentFuel_spec {nx : Scanner → Option (Token × Scanner)}
    {pre s : Scanner} {t : Token} {s1 : Scanner}
    (h : divideOrCommentFuel nx pre s = some (t, s1))
    (hp : s.peek = some '/')
    (ihx : ∀ (s2 : Scanner) (t2 : Token) (s3 : Scanner), nx s2 = some (t2, s3) →
        s3.rest <:+ s2.rest ∧
        (s3.rest.length < s2.rest.length ∨
          (t2.name = TokenName.END_OF_INPUT ∧ s3.peek = some sentinel)) ∧
        (t2.name = TokenName.END_OF_INPUT → TrailingJunk s2.rest)) :
    s1.rest <:+ s.rest ∧ s1.rest.length < s.rest.length ∧
    (t.name = TokenName.END_OF_INPUT → TrailingJunk s.rest) := by
  rw [divideOrCommentFuel] at h
  rcases hn : s.next with _ | ⟨c1, sA⟩ <;> rw [hn] at h
  · exact absurd h (by simp)
  obtain ⟨⟨a, hsh⟩, hhd⟩ := Scanner.next_shape hn
  have ha : a = '/' := by
    rw [Scanner.peek, hsh] at hp
    simpa using hp
  try dsimp only at h
  split at h
  · simp only [Option.some.injEq, Prod.mk.injEq] at h
    obtain ⟨rfl, rfl⟩ := h
    refine ⟨hsh ▸ List.suffix_cons a _, by simp [hsh], fun he => ?_⟩
    simp [simple_token] at he
  · rename_i hstar
    have hc1 : c1 = '*' := by simpa using hstar
    rcases hcm : commentAux sA with _ | sd <;> rw [hcm] at h
    · exact absurd h (by simp)
    rcases sd with s2 | sEnd
    · -- closed comment: recurse into nx
      obtain ⟨c0x, mid, hshape⟩ := commentAux_inl_shape hcm
      have hc0x : c0x = '*' := by
        rw [hshape] at hhd
        simp only [List.head?] at hhd
        rw [hc1] at hhd
        exact (Option.some.injEq .. ▸ hhd :)
      obtain ⟨hsuf3, hprog, hjunk⟩ := ihx s2 t s1 h
      have hs2suf : s2.rest <:+ sA.rest := by
        rw [hshape]
        exact ⟨c0x :: mid ++ ['*', '/'], by simp⟩
      have hs2len : s2.rest.length < sA.rest.length := by
        rw [hshape]
        simp only [List.length_cons, List.length_append]
        omega
      constructor
      · exact (hsuf3.trans hs2suf).trans (hsh ▸ List.suffix_cons a _)
      constructor
      · have h1 := hsuf3.length_le
        have h2 : sA.rest.length + 1 = s.rest.length := by simp [hsh]
        omega
      · intro he
        have hj2 := hjunk he
        rw [hsh, ha, hshape, hc0x]
        exact TrailingJunk.comment mid s2.rest hj2
    · -- end of input inside the comment
      obtain ⟨⟨c0x, mid, hshape⟩, hhdEnd⟩ := commentAux_inr_shape hcm
      obtain ⟨hname, _, _, hsub⟩ := error_spec h
      have hEndLen : sEnd.rest.length < sA.rest.length := by
        rw [hshape]
        simp only [List.length_cons, List.length_append]
        omega
      have hEndSuf : sEnd.rest <:+ sA.rest := by
        rw [hshape]
        exact ⟨c0x :: mid, by simp⟩
      constructor
      · exact (hsub.trans hEndSuf).trans (hsh ▸ List.suffix_cons a _)
      constructor
      · have h1 := hsub.length_le
        have h2 : sA.rest.length + 1 = s.rest.length := by simp [hsh]
        omega
      · intro he
        rw [he] at hname
        exact absurd hname (by decide)

set_option maxHeartbeats 2000000 in
theorem nextTokenFuel_spec :
    ∀ (fuel : Nat) (s : Scanner) (t : Token) (s1 : Scanner),
    nextTokenFuel fuel s = some (t, s1) →
    s1.rest <:+ s.rest ∧
    (s1.rest.length < s.rest.length ∨
      (t.name = TokenName.END_OF_INPUT ∧ s1.peek = some sentinel)) ∧
    (t.name = TokenName.END_OF_INPUT → TrailingJunk s.rest) := by
  intro fuel
  induction fuel with
  | zero =>
    intro s t s1 h
    rw [nextTokenFuel.eq_def] at h
    exact absurd h (by simp)
  | succ fuel ih =>
    intro s t s1 h
    rw [nextTokenFuel.eq_def] at h
    try dsimp only at h
    rcases hws : skip_whitespace s with _ | s0 <;> rw [hws] at h
    · exact absurd h (by simp)
    obtain ⟨⟨ws, hwsr, hall⟩, cstop, rstop, hs0r, hnsp⟩ := skip_whitespace_shape hws
    have hs0suf : s0.rest <:+ s.rest := ⟨ws, hwsr.symm⟩
    have hs0len : s0.rest.length ≤ s.rest.length := hs0suf.length_le
    try dsimp only at h
    rcases hpk : s0.peek with _ | c <;> rw [hpk] at h
    · exact absurd h (by simp)
    try dsimp only at h
    by_cases hb1 : c = '*'
    · rw [if_pos hb1] at h
      obtain ⟨rfl, a, hsh⟩ := simply_spec h
      refine ⟨(hsh ▸ List.suffix_cons a _).trans hs0suf, Or.inl ?_,
              fun he => by simp [simple_token] at he⟩
      have hx : s1.rest.length + 1 = s0.rest.length := by simp [hsh]
      omega
    rw [if_neg hb1] at h
    by_cases hb2 : c = '%'
    · rw [if_pos hb2] at h
      obtain ⟨rfl, a, hsh⟩ := simply_spec h
      refine ⟨(hsh ▸ List.suffix_cons a _).trans hs0suf, Or.inl ?_,
              fun he => by simp [simple_token] at he⟩
      have hx : s1.rest.length + 1 = s0.rest.length := by simp [hsh]
      omega
    rw [if_neg hb2] at h
    by_cases hb3 : c = '+'
    · rw [if_pos hb3] at h
      obtain ⟨rfl, a, hsh⟩ := simply_spec h
      refine ⟨(hsh ▸ List.suffix_cons a _).trans hs0suf, Or.inl ?_,
              fun he => by simp [simple_token] at he⟩
      have hx : s1.rest.length + 1 = s0.rest.length := by simp [hsh]
      omega
    rw [if_neg hb3] at h
    by_cases hb4 : c = '-'
    · rw [if_pos hb4] at h
      obtain ⟨rfl, a, hsh⟩ := simply_spec h
      refine ⟨(hsh ▸ List.suffix_cons a _).trans hs0suf, Or.inl ?_,
              fun he => by simp [simple_token] at he⟩
      have hx : s1.rest.length + 1 = s0.rest.length := by simp [hsh]
      omega
    rw [if_neg hb4] at h
    by_cases hb5 : c = '{'
    · rw [if_pos hb5] at h
      obtain ⟨rfl, a, hsh⟩ := simply_spec h
      refine ⟨(hsh ▸ List.suffix_cons a _).trans hs0suf, Or.inl ?_,
              fun he => by simp [simple_token] at he⟩
      have hx : s1.rest.length + 1 = s0.rest.length := by simp [hsh]
      omega
    rw [if_neg hb5] at h
    by_cases hb6 : c = '}'
    · rw [if_pos hb6] at h
      obtain ⟨rfl, a, hsh⟩ := simply_spec h
      refine ⟨(hsh ▸ List.suffix_cons a _).trans hs0suf, Or.inl ?_,
              fun he => by simp [simple_token] at he⟩
      have hx : s1.rest.length + 1 = s0.rest.length := by simp [hsh]
      omega
    rw [if_neg hb6] at h
    by_cases hb7 : c = '('
    · rw [if_pos hb7] at h
      obtain ⟨rfl, a, hsh⟩ := simply_spec h
      refine ⟨(hsh ▸ List.suffix_cons a _).trans hs0suf, Or.inl ?_,
              fun he => by simp [simple_token] at he⟩
      have hx : s1.rest.length + 1 = s0.rest.length := by simp [hsh]
      omega
    rw [if_neg hb7] at h
    by_cases hb8 : c = ')'
    · rw [if_pos hb8] at h
      obtain ⟨rfl, a, hsh⟩ := simply_spec h
      refine ⟨(hsh ▸ List.suffix_cons a _).trans hs0suf, Or.inl ?_,
              fun he => by simp [simple_token] at he⟩
      have hx : s1.rest.length + 1 = s0.rest.length := by simp [hsh]
      omega
    rw [if_neg hb8] at h
    by_cases hb9 : c = ';'
    · rw [if_pos hb9] at h
      obtain ⟨rfl, a, hsh⟩ := simply_spec h
      refine ⟨(hsh ▸ List.suffix_cons a _).trans hs0suf, Or.inl ?_,
              fun he => by simp [simple_token] at he⟩
      have hx : s1.rest.length + 1 = s0.rest.length := by simp [hsh]
      omega
    rw [if_neg hb9] at h
    by_cases hb10 : c = ','
    · rw [if_pos hb10] at h
      obtain ⟨rfl, a, hsh⟩ := simply_spec h
      refine ⟨(hsh ▸ List.suffix_cons a _).trans hs0suf, Or.inl ?_,
              fun he => by simp [simple_token] at he⟩
      have hx : s1.rest.length + 1 = s0.rest.length := by simp [hsh]
      omega
    rw [if_neg hb10] at h
    by_cases hb11 : c = '&'
    · rw [if_pos hb11] at h
      obtain ⟨hn1, hsuf2, hlen2⟩ := expect_spec h
      exact ⟨hsuf2.trans hs0suf, Or.inl (by omega), fun he => by simp [he] at hn1⟩
    rw [if_neg hb11] at h
    by_cases hb12 : c = '|'
    · rw [if_pos hb12] at h
      obtain ⟨hn1, hsuf2, hlen2⟩ := expect_spec h
      exact ⟨hsuf2.trans hs0suf, Or.inl (by omega), fun he => by simp [he] at hn1⟩
    rw [if_neg hb12] at h
    by_cases hb13 : c = '<'
    · rw [if_pos hb13] at h
      obtain ⟨hn1, hsuf2, hlen2⟩ := follow_spec h
      exact ⟨hsuf2.trans hs0suf, Or.inl (by omega), fun he => by simp [he] at hn1⟩
    rw [if_neg hb13] at h
    by_cases hb14 : c = '>'
    · rw [if_pos hb14] at h
      obtain ⟨hn1, hsuf2, hlen2⟩ := follow_spec h
      exact ⟨hsuf2.trans hs0suf, Or.inl (by omega), fun he => by simp [he] at hn1⟩
    rw [if_neg hb14] at h
    by_cases hb15 : c = '='
    · rw [if_pos hb15] at h
      obtain ⟨hn1, hsuf2, hlen2⟩ := follow_spec h
      exact ⟨hsuf2.trans hs0suf, Or.inl (by omega), fun he => by simp [he] at hn1⟩
    rw [if_neg hb15] at h
    by_cases hb16 : c = '!'
    · rw [if_pos hb16] at h
      obtain ⟨hn1, hsuf2, hlen2⟩ := follow_spec h
      exact ⟨hsuf2.trans hs0suf, Or.inl (by omega), fun he => by simp [he] at hn1⟩
    rw [if_neg hb16] at h
    by_cases hb17 : c = '/'
    · rw [if_pos hb17] at h
      obtain ⟨hsuf2, hlen2, hjunk⟩ :=
        divideOrCommentFuel_spec h (by rw [hpk, hb17]) (fun s2 t2 s3 hh => ih s2 t2 s3 hh)
      exact ⟨hsuf2.trans hs0suf, Or.inl (by omega),
             fun he => by rw [hwsr]; exact TrailingJunk_append_ws ws _ hall (hjunk he)⟩
    rw [if_neg hb17] at h
    by_cases hb18 : c = '\x27'
    · rw [if_pos hb18] at h
      obtain ⟨hn1, hsuf2, hlen2⟩ := char_lit_spec h
      exact ⟨hsuf2.trans hs0suf, Or.inl (by omega), fun he => by simp [he] at hn1⟩
    rw [if_neg hb18] at h
    by_cases hb19 : c = '"'
    · rw [if_pos hb19] at h
      obtain ⟨hn1, hsuf2, hlen2⟩ := string_lit_spec h
      exact ⟨hsuf2.trans hs0suf, Or.inl (by omega), fun he => by simp [he] at hn1⟩
    rw [if_neg hb19] at h
    by_cases hb20 : c = sentinel
    · rw [if_pos hb20] at h
      simp only [Option.some.injEq, Prod.mk.injEq] at h
      obtain ⟨rfl, rfl⟩ := h
      have hcstop : cstop = c := by
        rw [Scanner.peek, hs0r] at hpk
        simpa using hpk
      refine ⟨hs0suf, Or.inr ⟨rfl, by rw [hpk, hb20]⟩, fun _ => ?_⟩
      rw [hwsr]
      refine TrailingJunk_append_ws ws _ hall ?_
      rw [hs0r, hcstop, hb20]
      exact TrailingJunk.atEnd rstop
    rw [if_neg hb20] at h
    by_cases hb21 : is_id_start c = true
    · rw [if_pos hb21] at h
      obtain ⟨hn1, hsuf2, hlen2⟩ := identifier_spec h
      exact ⟨hsuf2.trans hs0suf, Or.inl (by omega), fun he => absurd he hn1⟩
    rw [if_neg hb21] at h
    by_cases hb22 : c_isdigit c = true
    · rw [if_pos hb22] at h
      obtain ⟨hn1, hsuf2, hlen2⟩ := integer_lit_spec h
      exact ⟨hsuf2.trans hs0suf, Or.inl (by omega), fun he => by simp [he] at hn1⟩
    rw [if_neg hb22] at h
    obtain ⟨hname, hl2, hc2, hsub⟩ := error_spec h
    have hst := error_spec_strict h hpk hb20
    exact ⟨hsub.trans hs0suf, Or.inl (by omega), fun he => by simp [he] at hname⟩


theorem next_token_spec {s : Scanner} {t : Token} {s1 : Scanner}
    (h : next_token s = some (t, s1)) :
    s1.rest <:+ s.rest ∧
    (s1.rest.length < s.rest.length ∨
      (t.name = TokenName.END_OF_INPUT ∧ s1.peek = some sentinel)) ∧
    (t.name = TokenName.END_OF_INPUT → TrailingJunk s.rest) := by
  rw [next_token] at h
  exact nextTokenFuel_spec _ s t s1 h

-- ---------------------------------------------------------------------------
-- The driver loop
-- ---------------------------------------------------------------------------

theorem has_more_true {s : Scanner} (h : has_more s = some true) :
    ∃ c, s.peek = some c ∧ c ≠ sentinel := by
  rw [has_more] at h
  rcases hp : s.peek with _ | c <;> rw [hp] at h
  · exact absurd h (by simp)
  · simp only [Option.some.injEq, decide_eq_true_eq] at h
    exact ⟨c, rfl, h⟩

theorem lexAllAux_acc : ∀ (fuel : Nat) (s : Scanner) (acc out : List Token),
    lexAllAux fuel s acc = some out → ∃ tail, out = acc ++ tail := by
  intro fuel
  induction fuel with
  | zero =>
    intro s acc out h
    rw [lexAllAux.eq_def] at h
    exact absurd h (by simp)
  | succ fuel ih =>
    intro s acc out h
    rw [lexAllAux.eq_def] at h
    try dsimp only at h
    rcases hm : has_more s with _ | b <;> rw [hm] at h
    · exact absurd h (by simp)
    cases b
    · try dsimp only at h
      simp only [Option.some.injEq] at h
      exact ⟨[], by simp [← h]⟩
    · try dsimp only at h
      rcases hnt : next_token s with _ | ⟨t0, sB⟩ <;> rw [hnt] at h
      · exact absurd h (by simp)
      try dsimp only at h
      obtain ⟨tail, htail⟩ := ih sB (acc ++ [t0]) out h
      exact ⟨[t0] ++ tail, by simp [htail]⟩

theorem lexAllAux_eoi : ∀ (fuel : Nat) (s : Scanner) (acc out : List Token),
    lexAllAux fuel s acc = some out →
    ∀ t, t ∈ out → t.name = TokenName.END_OF_INPUT → t ∉ acc →
    ∃ s2 : Scanner, s2.rest <:+ s.rest ∧
      (∃ c, s2.peek = some c ∧ c ≠ sentinel) ∧ TrailingJunk s2.rest := by
  intro fuel
  induction fuel with
  | zero =>
    intro s acc out h
    rw [lexAllAux.eq_def] at h
    exact absurd h (by simp)
  | succ fuel ih =>
    intro s acc out h t htOut htEoi htAcc
    rw [lexAllAux.eq_def] at h
    try dsimp only at h
    rcases hm : has_more s with _ | b <;> rw [hm] at h
    · exact absurd h (by simp)
    cases b
    · try dsimp only at h
      simp only [Option.some.injEq] at h
      rw [← h] at htOut
      exact absurd htOut htAcc
    · try dsimp only at h
      rcases hnt : next_token s with _ | ⟨t0, sB⟩ <;> rw [hnt] at h
      · exact absurd h (by simp)
      try dsimp only at h
      by_cases hmem : t ∈ acc ++ [t0]
      · have ht0 : t = t0 := by
          rcases List.mem_append.mp hmem with h1 | h1
          · exact absurd h1 htAcc
          · simpa using h1
        rw [next_token] at hnt
        obtain ⟨hsuf, hprog, hjunk⟩ := nextTokenFuel_spec _ s t0 sB hnt
        obtain ⟨c, hcp, hcs⟩ := has_more_true hm
        exact ⟨s, List.suffix_refl _, ⟨c, hcp, hcs⟩, hjunk (ht0 ▸ htEoi)⟩
      · obtain ⟨s2, hs2, hc2, hj2⟩ := ih sB (acc ++ [t0]) out h t htOut htEoi hmem
        rw [next_token] at hnt
        obtain ⟨hsuf, _, _⟩ := nextTokenFuel_spec _ s t0 sB hnt
        exact ⟨s2, hs2.trans hsuf, hc2, hj2⟩


theorem lexAllAux_stops (k : Nat) (s : Scanner) (acc : List Token)
    (h : s.peek = some sentinel) : lexAllAux (k + 1) s acc = some acc := by
  rw [lexAllAux.eq_def]
  dsimp only
  rw [has_more, h]
  simp

theorem lexAllAux_fuel_irrelevant :
    ∀ (n fuel1 fuel2 : Nat) (s : Scanner) (acc : List Token),
    s.rest.length + 2 ≤ n → n ≤ fuel1 → n ≤ fuel2 →
    lexAllAux fuel1 s acc = lexAllAux fuel2 s acc := by
  intro n
  induction n with
  | zero =>
    intro fuel1 fuel2 s acc hle h1 h2
    omega
  | succ n ih =>
    intro fuel1 fuel2 s acc hle h1 h2
    obtain ⟨f1, rfl⟩ : ∃ k, fuel1 = k + 1 := ⟨fuel1 - 1, by omega⟩
    obtain ⟨f2, rfl⟩ : ∃ k, fuel2 = k + 1 := ⟨fuel2 - 1, by omega⟩
    have e1 := lexAllAux.eq_def (f1 + 1) s acc
    have e2 := lexAllAux.eq_def (f2 + 1) s acc
    rw [e1, e2]
    dsimp only
    rcases hm : has_more s with _ | b
    · rfl
    cases b
    · rfl
    · dsimp only
      rcases hnt : next_token s with _ | ⟨t0, sB⟩
      · rfl
      dsimp only
      have hnt2 := hnt
      rw [next_token] at hnt2
      obtain ⟨_, hprog, _⟩ := nextTokenFuel_spec _ s t0 sB hnt2
      rcases hprog with hlt | ⟨_, hpk⟩
      · exact ih f1 f2 sB (acc ++ [t0]) (by omega) (by omega) (by omega)
      · obtain ⟨g1, rfl⟩ : ∃ k, f1 = k + 1 := ⟨f1 - 1, by omega⟩
        obtain ⟨g2, rfl⟩ : ∃ k, f2 = k + 1 := ⟨f2 - 1, by omega⟩
        rw [lexAllAux_stops g1 sB _ hpk, lexAllAux_stops g2 sB _ hpk]

-- ---------------------------------------------------------------------------
-- The claims
-- ---------------------------------------------------------------------------

/-- Claim C1: for every input buffer and cursor state, a completed call to
`next_token` either strictly advances the cursor (the remaining buffer
strictly shrinks, which is exactly a strict increase of the pointer) or
returns the END_OF_INPUT token with the cursor resting on the sentinel;
consequently the driver loop on a bounded input always terminates, which
the second conjunct states as the loop result being independent of any
sufficient fuel bound. -/
theorem c1_next_token_progress :
    (∀ (s : Scanner) (t : Token) (s1 : Scanner), next_token s = some (t, s1) →
      s1.rest.length < s.rest.length ∨
        (t.name = TokenName.END_OF_INPUT ∧ s1.peek = some sentinel)) ∧
    (∀ (fuel1 fuel2 : Nat) (s : Scanner) (acc : List Token),
      s.rest.length + 2 ≤ fuel1 → s.rest.length + 2 ≤ fuel2 →
      lexAllAux fuel1 s acc = lexAllAux fuel2 s acc) :=
  ⟨fun _ _ _ h => (next_token_spec h).2.1,
   fun fuel1 fuel2 s acc h1 h2 =>
     lexAllAux_fuel_irrelevant (s.rest.length + 2) fuel1 fuel2 s acc (le_refl _) h1 h2⟩

/-- Witness for C1 at the one-character input `+`: the call consumes the
plus sign. -/
theorem c1_next_token_progress_witness :
    (Scanner.mk [sentinel] 1 2).rest.length < (Scanner.mk ['+', sentinel] 1 1).rest.length ∨
      ((Token.mk .OP_ADD (.vint 0) 1 1).name = TokenName.END_OF_INPUT ∧
        (Scanner.mk [sentinel] 1 2).peek = some sentinel) :=
  c1_next_token_progress.1 (Scanner.mk ['+', sentinel] 1 1)
    (Token.mk .OP_ADD (.vint 0) 1 1) (Scanner.mk [sentinel] 1 2) (by decide)

/-- Claim C2 (the code contradicts it): on the one-character input
consisting of a lone quote, `char_lit` consumes the sentinel with
`s.next()` and then reads the buffer past the null terminator, modelled by
`none`; the whole run is an out-of-bounds read rather than an idempotent
sentinel peek. -/
theorem c2_char_lit_reads_past_terminator :
    lexProgram ['\x27'] = none ∧
    char_lit (initScanner ['\x27']) (initScanner ['\x27']) = none := by
  constructor <;> decide

/-- Claim C3 (the code contradicts it): the digit run 2147483648 exceeds
the 32-bit `int` stored in tokens, yet `integer_lit` produces an INTEGER
token whose value wrapped to -2147483648 (the `stol` result narrowed into
`int`); the "exceeds maximum value" error fires only past the 64-bit
`long` range, as the second conjunct shows. -/
theorem c3_integer_narrowing_wraps :
    lexProgram ("2147483648".toList) = some [⟨.INTEGER, .vint (-2147483648), 1, 1⟩] ∧
    lexProgram ("9223372036854775808".toList) =
      some [⟨.ERROR, .vstr (msgExceedsMax ++ ['\n'] ++ List.replicate 28 ' ' ++
             "(1, 20): 9223372036854775808".toList), 1, 1⟩] := by
  constructor <;> decide

/-- Counterexample to claim C4 as stated: lexing `&x` yields exactly one
ERROR token and no IDENTIFIER token at all. -/
theorem c4_counterexample :
    (lexProgram ("&x".toList)).map (fun ts => ts.map Token.name) =
      some [TokenName.ERROR] ∧
    decide ((lexProgram ("&x".toList)).map (fun ts => ts.map Token.name) =
      some [TokenName.ERROR, TokenName.IDENTIFIER]) = false := by
  constructor <;> decide

/-- Claim C4 as amended: lexing `&x` produces exactly one ERROR token
(message: Unrecognized character x in quotes, excerpt `&`, reported at
line 1 column 2, token positioned at 1,1); the error recovery advance of
lex.cpp line 264 consumes the `x`, so no IDENTIFIER token follows. -/
theorem c4_amended :
    lexProgram ("&x".toList) =
      some [⟨.ERROR, .vstr (msgUnrecognized 'x' ++ ['\n'] ++ List.replicate 28 ' ' ++
             "(1, 2): &".toList), 1, 1⟩] := by
  decide

/-- Counterexample to claim C5 as stated: lexing `123abc` does not yield a
single ERROR token; a spurious IDENTIFIER follows it. -/
theorem c5_counterexample :
    (lexProgram ("123abc".toList)).map (fun ts => ts.map Token.name) =
      some [TokenName.ERROR, TokenName.IDENTIFIER] ∧
    decide ((lexProgram ("123abc".toList)).map (fun ts => ts.map Token.name) =
      some [TokenName.ERROR]) = false := by
  constructor <;> decide

/-- Claim C5 as amended: the erroring call on `123abc` consumes the digit
run plus exactly one following letter (the error advance of lex.cpp line
264 steps past the `a` only), so scanning resumes at `b` and produces
IDENTIFIER bc after the "invalid number" ERROR token. -/
theorem c5_amended :
    lexProgram ("123abc".toList) =
      some [⟨.ERROR, .vstr (msgInvalidNumber ++ ['\n'] ++ List.replicate 28 ' ' ++
             "(1, 4): 123".toList), 1, 1⟩,
            ⟨.IDENTIFIER, .vstr ['b', 'c'], 1, 5⟩] := by
  decide

/-- Counterexample to claim C6 as stated: the token sequence the program
collects for `1 + 2;` has four tokens and no END_OF_INPUT token, because
`main` stops collecting once `has_more` is false. -/
theorem c6_counterexample :
    (lexProgram ("1 + 2;".toList)).map (fun ts => ts.map Token.name) =
      some [TokenName.INTEGER, TokenName.OP_ADD, TokenName.INTEGER, TokenName.SEMICOLON] ∧
    decide ((lexProgram ("1 + 2;".toList)).map (fun ts => ts.map Token.name) =
      some [TokenName.INTEGER, TokenName.OP_ADD, TokenName.INTEGER,
            TokenName.SEMICOLON, TokenName.END_OF_INPUT]) = false := by
  constructor <;> decide

/-- Claim C6 as amended: lexing `1 + 2;` collects exactly INTEGER(1) at
(1,1), OP_ADD at (1,3), INTEGER(2) at (1,5) and SEMICOLON at (1,6); no
END_OF_INPUT token is collected because the cursor then rests on the
sentinel and `has_more` is false, though one further `next_token` call
from that state would return END_OF_INPUT at (1,7). -/
theorem c6_amended :
    lexProgram ("1 + 2;".toList) =
      some [⟨.INTEGER, .vint 1, 1, 1⟩, ⟨.OP_ADD, .vint 0, 1, 3⟩,
            ⟨.INTEGER, .vint 2, 1, 5⟩, ⟨.SEMICOLON, .vint 0, 1, 6⟩] ∧
    next_token ⟨[sentinel], 1, 7⟩ =
      some (⟨.END_OF_INPUT, .vint 0, 1, 7⟩, ⟨[sentinel], 1, 7⟩) := by
  constructor <;> decide

/-- Claim C7: lexing `/* unterminated` produces exactly one ERROR token
whose diagnostic reports end-of-file in a comment (and hence no further
token of any kind, END_OF_INPUT included); and in general, whenever the
comment loop exits at the sentinel, `divide_or_comment` returns the
unterminated-comment error built at that end state. -/
theorem c7_unterminated_comment :
    lexProgram ("/* unterminated".toList) =
      some [⟨.ERROR, .vstr (msgEofComment ++ ['\n'] ++ List.replicate 28 ' ' ++
             "(1, 16): /* unterminated".toList), 1, 1⟩] ∧
    ∀ (pre s sA sEnd : Scanner) (c1 : Char), s.next = some (c1, sA) → c1 = '*' →
      commentAux sA = some (.inr sEnd) →
      divide_or_comment pre s = Lexer.error pre sEnd msgEofComment := by
  constructor
  · decide
  · intro pre s sA sEnd c1 hn hc1 hcm
    rw [divide_or_comment, divideOrCommentFuel, hn]
    dsimp only
    rw [if_neg (by simp [hc1]), hcm]

/-- Claim C8: the six-character source with quote, a, backslash, n, b,
quote lexes to a single STRING token whose value is a, newline, b; and
rendering that token escapes the newline back into backslash-n. -/
theorem c8_string_escape_roundtrip :
    lexProgram ['"', 'a', '\\', 'n', 'b', '"'] =
      some [⟨.STRING, .vstr ['a', '\n', 'b'], 1, 1⟩] ∧
    sanitize ['a', '\n', 'b'] = ['a', '\\', 'n', 'b'] ∧
    tokenToChars ⟨.STRING, .vstr ['a', '\n', 'b'], 1, 1⟩ =
      " 1    1   String            \"a\\nb\"\n".toList := by
  refine ⟨by decide, by decide, by decide⟩

/-- Counterexample to claim C9 as stated: the separator line the renderer
writes has 38 dashes, not 40, and the table is not terminated by the
end-of-input token entry when the list carries none (the function appends
nothing of its own). -/
theorem c9_counterexample :
    (list_tokens []).count '-' = 38 ∧
    decide (((list_tokens [⟨TokenName.INTEGER, .vint 1, 1, 1⟩]).drop 34).take 40 =
      List.replicate 40 '-') = false ∧
    ("End_of_input\n".toList.isSuffixOf
      (list_tokens [⟨TokenName.INTEGER, .vint 1, 1, 1⟩])) = false := by
  refine ⟨by decide, by decide, by decide⟩

/-- Claim C9 as amended: for every token list the rendered table is the
exact header line, a separator line of 38 dashes, then the renderings of
the tokens in production order; the table ends with the last token's entry
(so it ends with the end-of-input entry exactly when END_OF_INPUT is the
last token of the list). -/
theorem c9_amended :
    (∀ ts : List Token, list_tokens ts =
      "Location  Token name        Value".toList ++ ['\n'] ++
      List.replicate 38 '-' ++ ['\n'] ++ (ts.map tokenToChars).flatten) ∧
    (∀ (ts : List Token) (t : Token),
      list_tokens (ts ++ [t]) = list_tokens ts ++ tokenToChars t) := by
  constructor
  · intro ts
    rfl
  · intro ts t
    simp [list_tokens, List.map_append, List.flatten_append, List.append_assoc]

/-- Counterexample to claim C10 as stated: the whitespace-free input
`a/*b*/` still makes the driver collect an END_OF_INPUT token, because a
trailing comment (not only trailing whitespace) carries the cursor to the
sentinel inside a `has_more` iteration. -/
theorem c10_counterexample :
    lexProgram ("a/*b*/".toList) =
      some [⟨.IDENTIFIER, .vstr ['a'], 1, 1⟩, ⟨.END_OF_INPUT, .vint 0, 1, 7⟩] ∧
    ("a/*b*/".toList.all (fun c => ! c_isspace c)) = true := by
  constructor <;> decide

/-- Claim C10 as amended: whenever a collected token is END_OF_INPUT, the
call that produced it started at a state from which everything up to the
sentinel is whitespace or block comments (a nonempty trailing junk
segment); so no END_OF_INPUT is collected when the last token ends at the
last character of the source, and one appears only when trailing
whitespace or a trailing comment follows the last real token. -/
theorem c10_amended (input : List Char) (out : List Token)
    (h : lexProgram input = some out) (t : Token) (ht : t ∈ out)
    (he : t.name = TokenName.END_OF_INPUT) :
    ∃ s2 : Scanner, s2.rest <:+ input ++ [sentinel] ∧
      (∃ c, s2.peek = some c ∧ c ≠ sentinel) ∧ TrailingJunk s2.rest := by
  rw [lexProgram] at h
  obtain ⟨s2, hs, hc, hj⟩ :=
    lexAllAux_eoi (input.length + 2) (initScanner input) [] out h t ht he (by simp)
  exact ⟨s2, by simpa [initScanner] using hs, hc, hj⟩

/-- Witness for C10 as amended, at the input `a/*b*/` whose END_OF_INPUT
token the driver collects. -/
theorem c10_amended_witness :
    ∃ s2 : Scanner, s2.rest <:+ ("a/*b*/".toList ++ [sentinel]) ∧
      (∃ c, s2.peek = some c ∧ c ≠ sentinel) ∧ TrailingJunk s2.rest :=
  c10_amended ("a/*b*/".toList)
    [⟨.IDENTIFIER, .vstr ['a'], 1, 1⟩, ⟨.END_OF_INPUT, .vint 0, 1, 7⟩]
    (by decide) ⟨.END_OF_INPUT, .vint 0, 1, 7⟩ (by decide) (by decide)

end RosettaLex
